import Mathlib

/-!
# Verification of the `fpu` module

A shallow embedding of the repository's `fpu.py` module: FPU rounding-mode
control (backend selection, scoped rounding executors) and the IEEE-754-aware
numeric helpers (`min`, `max`, `power`, `intrepr`, `nudge`), together with
proofs settling the specification's claims about them.

Python floats are modelled over `ℚ`: the values a finite IEEE-754 double can
take are dyadic rationals, and the host arithmetic used by the helpers is
modelled by explicit rounding to double precision where an operation can be
inexact.  NaN is a distinguished extra value (`PyFloat.nan`).
-/

namespace Fpu

/-! ## Rounding-mode state and the scoped executors (`down` / `up`)

The FPU rounding mode is process-global mutable state: one machine word.
`_fegetround` / `_fesetround` are the libm entry points bound at init time;
a computation is a state transformer that either returns a value or raises
(`Except Unit`), possibly having changed the rounding mode itself. -/

/-- Rounding-control codes selected by `_init_libm` on the default
(non-powerpc, non-sparc) processor: `_fe_upward, _fe_downward = 0x0800, 0x0400`. -/
def _fe_upward : Int := 0x0800

/-- `_init_libm` default downward code. -/
def _fe_downward : Int := 0x0400

/-- The process-global FPU state: the active rounding mode. -/
structure FpuState where
  mode : Int
  deriving DecidableEq, Repr

/-- `libm.fegetround`: read the active rounding mode. -/
def _fegetround (s : FpuState) : Int :=
  s.mode

/-- `libm.fesetround`: set the active rounding mode. -/
def _fesetround (flag : Int) (_s : FpuState) : FpuState :=
  ⟨flag⟩

/-- A zero-argument Python computation: reads and may mutate the FPU state,
and either returns a value (`Except.ok`) or raises (`Except.error ()`). -/
def Computation (α : Type) : Type :=
  FpuState → Except Unit α × FpuState

/-- `down(f)`: save the mode, set rounding downward, run `f`, and — on the
`finally` path taken whether `f` returned or raised — restore the saved mode.
The outcome of `f` (value or exception) is propagated unchanged. -/
def down {α : Type} (f : Computation α) (s : FpuState) : Except Unit α × FpuState :=
  let saved := _fegetround s
  let s1 := _fesetround _fe_downward s
  let (r, s2) := f s1
  (r, _fesetround saved s2)

/-- `up(f)`: same as `down` with the upward code. -/
def up {α : Type} (f : Computation α) (s : FpuState) : Except Unit α × FpuState :=
  let saved := _fegetround s
  let s1 := _fesetround _fe_upward s
  let (r, s2) := f s1
  (r, _fesetround saved s2)

/-! ## Backend initialization: architecture table and strategy loop -/

/-- The processor-to-codes table of `_init_libm`: the `(roundUpCode,
roundDownCode)` pair chosen for a given `platform.processor()` string. -/
def libmCodes (processor : String) : Int × Int :=
  if processor = "powerpc" then (2, 3)
  else if processor = "sparc" then (0x80000000, 0xC0000000)
  else (0x0800, 0x0400)

/-- The codes bound by `_init_msvc`: `_fe_upward, _fe_downward = 0x0200, 0x0100`. -/
def msvcCodes : Int × Int :=
  (0x0200, 0x0100)

/-- `_controlfp(fpNew, mask)` on a 32-bit control word `cw` (modelled from the
MSVC runtime's documented contract, which is external to the repository): the
bits of `cw` selected by `mask` are replaced by the corresponding bits of
`fpNew`; all other bits are kept. -/
def _controlfp (fpNew mask cw : Nat) : Nat :=
  Nat.ldiff cw mask ||| (fpNew &&& mask)

/-- The `_fesetround` bound by `_init_msvc`: `_controlfp(flag, 0x300)`. -/
def msvcSetround (flag cw : Nat) : Nat :=
  _controlfp flag 0x300 cw

/-- A successfully initialized rounding backend (the module-level globals an
`_init_*` strategy binds when it completes without error). -/
structure Backend where
  feUpward : Int
  feDownward : Int
  deriving DecidableEq, Repr

/-- Outcome of module initialization: either some strategy succeeded and its
backend is active, or all failed and the module emitted the non-fatal warning,
leaving the backend unbound.  No exception escapes in either case. -/
inductive InitOutcome where
  | bound (b : Backend)
  | warnedUnbound
  deriving DecidableEq, Repr

/-- The `for _f in _init_libm, _init_msvc: try: _f(); break; except: pass;
else: warn(...)` loop, over the list of strategy outcomes (`some b` if the
strategy initializes backend `b` without error, `none` if it raises).  Returns
the init outcome together with how many strategies were attempted. -/
def initLoop : List (Option Backend) → InitOutcome × Nat
  | [] => (.warnedUnbound, 0)
  | none :: rest =>
      let (r, k) := initLoop rest
      (r, k + 1)
  | some b :: _ => (.bound b, 1)

/-- Module initialization: the strategies in their fixed source order,
`_init_libm` first, then `_init_msvc`. -/
def moduleInit (libm msvc : Option Backend) : InitOutcome × Nat :=
  initLoop [libm, msvc]

/-! ## Theorems: C1, C2, C3 -/

/-- **C1.** For every zero-argument computation `f` and every starting rounding
mode, after a call to `up(f)` or `down(f)` finishes — whether `f` returns
normally or raises, and whatever `f` itself did to the rounding mode — the
active rounding mode (as read via the backend's `_fegetround`) equals the mode
that was read immediately before the call started. -/
theorem up_down_restore_mode {α : Type} (f : Computation α) (s : FpuState) :
    _fegetround (up f s).2 = _fegetround s ∧
    _fegetround (down f s).2 = _fegetround s := by
  constructor <;> simp [up, down, _fegetround, _fesetround]

/-- **C2.** Backend initialization selects exactly the specified code pairs:
powerpc ↦ (2, 3), sparc ↦ (0x80000000, 0xC0000000), every other processor ↦
(0x0800, 0x0400); the MSVC backend uses (0x0200, 0x0100) and performs its set
operation as `_controlfp(flag, 0x300)`, so bits outside the rounding-control
mask 0x300 (bits 8 and 9) are unaffected. -/
theorem backend_codes (p : String) (hp1 : p ≠ "powerpc") (hp2 : p ≠ "sparc")
    (flag cw i : Nat) (hi8 : i ≠ 8) (hi9 : i ≠ 9) :
    libmCodes "powerpc" = (2, 3) ∧
    libmCodes "sparc" = (0x80000000, 0xC0000000) ∧
    libmCodes p = (0x0800, 0x0400) ∧
    msvcCodes = (0x0200, 0x0100) ∧
    msvcSetround flag cw = _controlfp flag 0x300 cw ∧
    Nat.testBit (msvcSetround flag cw) i = Nat.testBit cw i := by
  refine ⟨rfl, rfl, ?_, rfl, rfl, ?_⟩
  · simp [libmCodes, hp1, hp2]
  · have h300 : Nat.testBit 0x300 i = false := by
      rcases Nat.lt_or_ge i 10 with h | h
      · interval_cases i <;> first | decide | simp_all
      · exact Nat.testBit_lt_two_pow (lt_of_lt_of_le (by norm_num)
          (Nat.pow_le_pow_right (by norm_num) h))
    simp [msvcSetround, _controlfp, Nat.testBit_lor, Nat.testBit_ldiff,
      Nat.testBit_land, h300]

/-- Witness for C2 at a concrete non-powerpc, non-sparc processor string and a
concrete control word: the default codes are selected, and bit 4 of the
control word survives an MSVC set operation. -/
theorem backend_codes_witness :
    libmCodes "arm" = (0x0800, 0x0400) ∧
    Nat.testBit (msvcSetround 0x0200 0x0010) 4 = Nat.testBit 0x0010 4 :=
  ⟨(backend_codes "arm" (by decide) (by decide) 0x0200 0x0010 4
      (by decide) (by decide)).2.2.1,
   (backend_codes "arm" (by decide) (by decide) 0x0200 0x0010 4
      (by decide) (by decide)).2.2.2.2.2⟩

/-- **C3.** Initialization tries the strategies in the fixed order — libm
first, then MSVC; the first strategy that completes without error becomes the
active backend and the remaining strategies are not attempted (attempt count
stops there); if every strategy fails, initialization does not raise: it
results in the warned, backend-unbound outcome after attempting both. -/
theorem init_first_success (libm msvc : Option Backend) (b : Backend) :
    (libm = some b → moduleInit libm msvc = (.bound b, 1)) ∧
    (libm = none → msvc = some b → moduleInit libm msvc = (.bound b, 2)) ∧
    (libm = none → msvc = none → moduleInit libm msvc = (.warnedUnbound, 2)) := by
  refine ⟨fun h1 => ?_, fun h1 h2 => ?_, fun h1 h2 => ?_⟩ <;>
    subst h1 <;> first | (subst h2; rfl) | rfl

/-- Witness for C3: with libm failing and MSVC succeeding, the MSVC backend is
bound after two attempts. -/
theorem init_first_success_witness :
    moduleInit none (some ⟨0x0200, 0x0100⟩) = (.bound ⟨0x0200, 0x0100⟩, 2) :=
  (init_first_success none (some ⟨0x0200, 0x0100⟩) ⟨0x0200, 0x0100⟩).2.1 rfl rfl

/-! ## Python floats and the NaN-aware reductions `min` / `max`

A Python float is a finite double (modelled as its exact rational value) or
NaN.  IEEE-754 comparisons on NaN: `!=` is true, `<` is false. -/

/-- A Python float value: NaN or a finite double (its exact rational value). -/
inductive PyFloat where
  | nan
  | val (q : ℚ)
  deriving DecidableEq, Repr

/-- IEEE-754 `!=` on floats: any comparison with NaN is unordered, so `!=`
holds; on finite values it is rational disequality. -/
def pyNe : PyFloat → PyFloat → Bool
  | .nan, _ => true
  | _, .nan => true
  | .val a, .val b => a != b

/-- IEEE-754 `<` on floats: false when either side is NaN. -/
def pyLt : PyFloat → PyFloat → Bool
  | .nan, _ => false
  | _, .nan => false
  | .val a, .val b => a < b

/-- `isnan(x)`: `x != x`. -/
def isnan (x : PyFloat) : Bool :=
  pyNe x x

/-- Exceptions escaping the reduction helpers' internals: `NanException`
raised by `ensure_nonan`, or the `ValueError` of builtin `min`/`max` over an
empty sequence (the spec's `EmptyReductionError`). -/
inductive ReduceErr where
  | nanExc
  | emptyErr
  deriving DecidableEq, Repr

/-- `ensure_nonan(x)`: return `x`, raising `NanException` if `x` is NaN. -/
def ensure_nonan (x : PyFloat) : Except ReduceErr PyFloat :=
  if isnan x then .error .nanExc else .ok x

/-- The fold of Python's builtin `min` after its first element, consuming the
`ensure_nonan(x) for x in l` generator lazily: the current minimum is replaced
when a new element compares `<` to it, and an exception from the generator
propagates. -/
def minGo (acc : PyFloat) : List PyFloat → Except ReduceErr PyFloat
  | [] => .ok acc
  | x :: xs =>
      match ensure_nonan x with
      | .error e => .error e
      | .ok y => minGo (if pyLt y acc then y else acc) xs

/-- Python's builtin `min` over the `ensure_nonan` generator: `ValueError` on
an empty sequence, otherwise a lazy fold from the first element. -/
def builtinMin : List PyFloat → Except ReduceErr PyFloat
  | [] => .error .emptyErr
  | x :: xs =>
      match ensure_nonan x with
      | .error e => .error e
      | .ok y => minGo y xs

/-- The fold of Python's builtin `max` after its first element: the current
maximum is replaced when a new element compares `>` to it. -/
def maxGo (acc : PyFloat) : List PyFloat → Except ReduceErr PyFloat
  | [] => .ok acc
  | x :: xs =>
      match ensure_nonan x with
      | .error e => .error e
      | .ok y => maxGo (if pyLt acc y then y else acc) xs

/-- Python's builtin `max` over the `ensure_nonan` generator. -/
def builtinMax : List PyFloat → Except ReduceErr PyFloat
  | [] => .error .emptyErr
  | x :: xs =>
      match ensure_nonan x with
      | .error e => .error e
      | .ok y => maxGo y xs

/-- The module's `min(l)`: builtin `min` over the `ensure_nonan` generator,
with `NanException` caught and replaced by NaN; any other outcome (a value, or
the empty-sequence `ValueError`) passes through. -/
def min (l : List PyFloat) : Except ReduceErr PyFloat :=
  match builtinMin l with
  | .error .nanExc => .ok .nan
  | r => r

/-- The module's `max(l)`: same with builtin `max`. -/
def max (l : List PyFloat) : Except ReduceErr PyFloat :=
  match builtinMax l with
  | .error .nanExc => .ok .nan
  | r => r

lemma minGo_nan (acc : PyFloat) (l : List PyFloat) (h : ∃ x ∈ l, isnan x = true) :
    minGo acc l = .error .nanExc := by
  induction l generalizing acc with
  | nil => simp at h
  | cons x xs ih =>
      rcases h with ⟨y, hy, hyn⟩
      rcases List.mem_cons.1 hy with rfl | hmem
      · simp [minGo, ensure_nonan, hyn]
      · by_cases hx : isnan x = true
        · simp [minGo, ensure_nonan, hx]
        · simp only [Bool.not_eq_true] at hx
          simp only [minGo, ensure_nonan, hx, Bool.false_eq_true, if_false]
          exact ih _ ⟨y, hmem, hyn⟩

lemma maxGo_nan (acc : PyFloat) (l : List PyFloat) (h : ∃ x ∈ l, isnan x = true) :
    maxGo acc l = .error .nanExc := by
  induction l generalizing acc with
  | nil => simp at h
  | cons x xs ih =>
      rcases h with ⟨y, hy, hyn⟩
      rcases List.mem_cons.1 hy with rfl | hmem
      · simp [maxGo, ensure_nonan, hyn]
      · by_cases hx : isnan x = true
        · simp [maxGo, ensure_nonan, hx]
        · simp only [Bool.not_eq_true] at hx
          simp only [maxGo, ensure_nonan, hx, Bool.false_eq_true, if_false]
          exact ih _ ⟨y, hmem, hyn⟩

lemma isnan_val (q : ℚ) : isnan (.val q) = false := by
  simp [isnan, pyNe]

lemma minGo_ok (a : ℚ) (l : List PyFloat) (h : ∀ x ∈ l, isnan x = false) :
    ∃ m : ℚ, minGo (.val a) l = .ok (.val m) ∧ m ≤ a ∧
      (m = a ∨ PyFloat.val m ∈ l) ∧ ∀ q : ℚ, PyFloat.val q ∈ l → m ≤ q := by
  induction l generalizing a with
  | nil => exact ⟨a, rfl, le_refl a, Or.inl rfl, by simp⟩
  | cons x xs ih =>
      obtain ⟨b, rfl⟩ : ∃ b : ℚ, x = .val b := by
        cases x with
        | nan => exact absurd (h .nan (by simp)) (by simp [isnan, pyNe])
        | val b => exact ⟨b, rfl⟩
      have hxs : ∀ x ∈ xs, isnan x = false := fun x hx => h x (List.mem_cons_of_mem _ hx)
      have hstep : minGo (.val a) (.val b :: xs)
          = minGo (if b < a then .val b else .val a) xs := by
        simp [minGo, ensure_nonan, isnan_val, pyLt]
      by_cases hba : b < a
      · obtain ⟨m, hrun, hle, hmem, hbd⟩ := ih b hxs
        refine ⟨m, ?_, le_of_lt (lt_of_le_of_lt hle hba), ?_, ?_⟩
        · rw [hstep, if_pos hba]; exact hrun
        · rcases hmem with rfl | hm
          · exact Or.inr (by simp)
          · exact Or.inr (List.mem_cons_of_mem _ hm)
        · intro q hq
          rcases List.mem_cons.1 hq with hq' | hq'
          · cases hq'; exact hle
          · exact hbd q hq'
      · obtain ⟨m, hrun, hle, hmem, hbd⟩ := ih a hxs
        refine ⟨m, ?_, hle, ?_, ?_⟩
        · rw [hstep, if_neg hba]; exact hrun
        · rcases hmem with rfl | hm
          · exact Or.inl rfl
          · exact Or.inr (List.mem_cons_of_mem _ hm)
        · intro q hq
          rcases List.mem_cons.1 hq with hq' | hq'
          · cases hq'; exact le_trans hle (le_of_not_lt hba)
          · exact hbd q hq'

lemma maxGo_ok (a : ℚ) (l : List PyFloat) (h : ∀ x ∈ l, isnan x = false) :
    ∃ m : ℚ, maxGo (.val a) l = .ok (.val m) ∧ a ≤ m ∧
      (m = a ∨ PyFloat.val m ∈ l) ∧ ∀ q : ℚ, PyFloat.val q ∈ l → q ≤ m := by
  induction l generalizing a with
  | nil => exact ⟨a, rfl, le_refl a, Or.inl rfl, by simp⟩
  | cons x xs ih =>
      obtain ⟨b, rfl⟩ : ∃ b : ℚ, x = .val b := by
        cases x with
        | nan => exact absurd (h .nan (by simp)) (by simp [isnan, pyNe])
        | val b => exact ⟨b, rfl⟩
      have hxs : ∀ x ∈ xs, isnan x = false := fun x hx => h x (List.mem_cons_of_mem _ hx)
      have hstep : maxGo (.val a) (.val b :: xs)
          = maxGo (if a < b then .val b else .val a) xs := by
        simp [maxGo, ensure_nonan, isnan_val, pyLt]
      by_cases hba : a < b
      · obtain ⟨m, hrun, hle, hmem, hbd⟩ := ih b hxs
        refine ⟨m, ?_, le_of_lt (lt_of_lt_of_le hba hle), ?_, ?_⟩
        · rw [hstep, if_pos hba]; exact hrun
        · rcases hmem with rfl | hm
          · exact Or.inr (by simp)
          · exact Or.inr (List.mem_cons_of_mem _ hm)
        · intro q hq
          rcases List.mem_cons.1 hq with hq' | hq'
          · cases hq'; exact hle
          · exact hbd q hq'
      · obtain ⟨m, hrun, hle, hmem, hbd⟩ := ih a hxs
        refine ⟨m, ?_, hle, ?_, ?_⟩
        · rw [hstep, if_neg hba]; exact hrun
        · rcases hmem with rfl | hm
          · exact Or.inl rfl
          · exact Or.inr (List.mem_cons_of_mem _ hm)
        · intro q hq
          rcases List.mem_cons.1 hq with hq' | hq'
          · cases hq'; exact le_trans (le_of_not_lt hba) hle
          · exact hbd q hq'

/-- **C4.** For every finite non-empty sequence of floats `l`: if some element
is NaN then both `min(l)` and `max(l)` return NaN (regardless of the NaN's
position); if no element is NaN then `min(l)` and `max(l)` return an element
of `l` that is a lower (resp. upper) bound of `l` under the standard
ordering. -/
theorem min_max_nan_and_order (l : List PyFloat) (hne : l ≠ []) :
    ((∃ x ∈ l, isnan x = true) → Fpu.min l = .ok .nan ∧ Fpu.max l = .ok .nan) ∧
    ((∀ x ∈ l, isnan x = false) →
      ∃ m M : ℚ, Fpu.min l = .ok (.val m) ∧ Fpu.max l = .ok (.val M) ∧
        PyFloat.val m ∈ l ∧ PyFloat.val M ∈ l ∧
        ∀ q : ℚ, PyFloat.val q ∈ l → m ≤ q ∧ q ≤ M) := by
  obtain ⟨x, xs, rfl⟩ : ∃ x xs, l = x :: xs := by
    cases l with
    | nil => exact absurd rfl hne
    | cons x xs => exact ⟨x, xs, rfl⟩
  constructor
  · rintro ⟨y, hy, hyn⟩
    have hmin : builtinMin (x :: xs) = .error .nanExc := by
      rcases List.mem_cons.1 hy with rfl | hmem
      · simp [builtinMin, ensure_nonan, hyn]
      · by_cases hx : isnan x = true
        · simp [builtinMin, ensure_nonan, hx]
        · simp only [Bool.not_eq_true] at hx
          simp only [builtinMin, ensure_nonan, hx, Bool.false_eq_true, if_false]
          exact minGo_nan _ _ ⟨y, hmem, hyn⟩
    have hmax : builtinMax (x :: xs) = .error .nanExc := by
      rcases List.mem_cons.1 hy with rfl | hmem
      · simp [builtinMax, ensure_nonan, hyn]
      · by_cases hx : isnan x = true
        · simp [builtinMax, ensure_nonan, hx]
        · simp only [Bool.not_eq_true] at hx
          simp only [builtinMax, ensure_nonan, hx, Bool.false_eq_true, if_false]
          exact maxGo_nan _ _ ⟨y, hmem, hyn⟩
    constructor
    · simp [Fpu.min, hmin]
    · simp [Fpu.max, hmax]
  · intro h
    obtain ⟨a, rfl⟩ : ∃ a : ℚ, x = .val a := by
      cases x with
      | nan => exact absurd (h .nan (by simp)) (by simp [isnan, pyNe])
      | val a => exact ⟨a, rfl⟩
    have hxs : ∀ x ∈ xs, isnan x = false := fun x hx => h x (List.mem_cons_of_mem _ hx)
    obtain ⟨m, hm, hma, hmmem, hmbd⟩ := minGo_ok a xs hxs
    obtain ⟨M, hM, hMa, hMmem, hMbd⟩ := maxGo_ok a xs hxs
    have hmin : builtinMin (.val a :: xs) = .ok (.val m) := by
      simp only [builtinMin, ensure_nonan, isnan_val, Bool.false_eq_true, if_false]
      exact hm
    have hmax : builtinMax (.val a :: xs) = .ok (.val M) := by
      simp only [builtinMax, ensure_nonan, isnan_val, Bool.false_eq_true, if_false]
      exact hM
    refine ⟨m, M, by simp [Fpu.min, hmin], by simp [Fpu.max, hmax], ?_, ?_, ?_⟩
    · rcases hmmem with rfl | hm'
      · simp
      · exact List.mem_cons_of_mem _ hm'
    · rcases hMmem with rfl | hM'
      · simp
      · exact List.mem_cons_of_mem _ hM'
    · intro q hq
      rcases List.mem_cons.1 hq with hq' | hq'
      · cases hq'; exact ⟨hma, hMa⟩
      · exact ⟨hmbd q hq', hMbd q hq'⟩

/-- Witness for C4: a list with a NaN in the middle reduces to NaN for both
`min` and `max`. -/
theorem min_max_nan_and_order_witness :
    Fpu.min [.val 2, .nan, .val 1] = .ok .nan ∧
    Fpu.max [.val 2, .nan, .val 1] = .ok .nan :=
  (min_max_nan_and_order [.val 2, .nan, .val 1] (by decide)).1
    ⟨.nan, by decide, by decide⟩

/-- **C9.** For the empty sequence, `min` and `max` fail with the
empty-reduction error surfaced to the caller: they neither return a value nor
return NaN. -/
theorem min_max_empty :
    Fpu.min [] = .error .emptyErr ∧ Fpu.max [] = .error .emptyErr := by
  constructor <;> rfl

/-! ## Exact integer power (`power`)

`power(x, n)` for integer `n`: the `while n > 0: n, y = divmod(n, 2); l = (y, l)`
loop builds the binary digits of `n` most-significant-first (the nested tuple
`l` is modelled as a list with the outermost — most significant — bit at the
head), then the `while l` loop folds them by square-and-multiply. -/

/-- The digit-decomposition loop: `l = (y, l)` prepends each new (more
significant) bit, so the finished list holds the bits of `n`
most-significant-first in front of `acc`. -/
def buildBits : Nat → List Nat → List Nat
  | 0, l => l
  | n + 1, l => buildBits ((n + 1) / 2) ((n + 1) % 2 :: l)
  decreasing_by exact Nat.div_lt_self (Nat.succ_pos n) one_lt_two

/-- The square-and-multiply fold: for each bit `y` (consumed
most-significant-first), square the accumulator and multiply by `x` when the
bit is set (`if y:` — nonzero — in the source). -/
def foldBits {M : Type} [Monoid M] (x : M) : M → List Nat → M
  | result, [] => result
  | result, y :: l => foldBits x (if y ≠ 0 then result * result * x else result * result) l

/-- The nonnegative-exponent path of `power(x, n)`: decompose, then fold from
`result = 1`. -/
def powerLoop {M : Type} [Monoid M] (x : M) (n : Nat) : M :=
  foldBits x 1 (buildBits n [])

/-- Modelled from the spec: the reference definition of exponentiation, `x`
multiplied by itself `n` times (the empty product being `1`). -/
def repeatedMul {M : Type} [Monoid M] (x : M) : Nat → M
  | 0 => 1
  | n + 1 => repeatedMul x n * x

/-- `power(x, n)` instantiated at Python integers: the negative-exponent
branch returns `1 / power(x, -n)` where `/` on Python 2 integers is floor
division (`Int.fdiv`); otherwise the square-and-multiply loop runs. -/
def power (x : ℤ) (n : ℤ) : ℤ :=
  if n < 0 then Int.fdiv 1 (powerLoop x (-n).toNat)
  else powerLoop x n.toNat

lemma foldBits_append {M : Type} [Monoid M] (x : M) (r : M) (l1 l2 : List Nat) :
    foldBits x r (l1 ++ l2) = foldBits x (foldBits x r l1) l2 := by
  induction l1 generalizing r with
  | nil => rfl
  | cons y l ih => simp only [List.cons_append, foldBits]; exact ih _

lemma buildBits_eq (n : Nat) : ∀ acc, buildBits n acc = buildBits n [] ++ acc := by
  induction n using Nat.strong_induction_on with
  | _ n ih =>
      intro acc
      match n with
      | 0 => simp [buildBits]
      | n + 1 =>
          have h2 : (n + 1) / 2 < n + 1 := Nat.div_lt_self (Nat.succ_pos n) one_lt_two
          rw [buildBits, buildBits, ih _ h2 ((n + 1) % 2 :: acc), ih _ h2 [(n + 1) % 2]]
          simp

lemma foldBits_buildBits {M : Type} [Monoid M] (x : M) (n : Nat) :
    foldBits x 1 (buildBits n []) = x ^ n := by
  induction n using Nat.strong_induction_on with
  | _ n ih =>
      match n with
      | 0 => simp [buildBits, foldBits]
      | n + 1 =>
          have h2 : (n + 1) / 2 < n + 1 := Nat.div_lt_self (Nat.succ_pos n) one_lt_two
          rw [buildBits, buildBits_eq, foldBits_append, ih _ h2]
          rcases Nat.mod_two_eq_zero_or_one (n + 1) with h | h
          · rw [h]
            show foldBits x (if (0 : Nat) ≠ 0 then _ else x ^ ((n + 1) / 2) * x ^ ((n + 1) / 2)) [] = x ^ (n + 1)
            rw [if_neg (by simp), ← pow_add]
            show x ^ ((n + 1) / 2 + (n + 1) / 2) = x ^ (n + 1)
            congr 1
            omega
          · rw [h]
            show foldBits x (if (1 : Nat) ≠ 0 then x ^ ((n + 1) / 2) * x ^ ((n + 1) / 2) * x else _) [] = x ^ (n + 1)
            rw [if_pos (by simp), ← pow_add, ← pow_succ]
            show x ^ ((n + 1) / 2 + (n + 1) / 2 + 1) = x ^ (n + 1)
            congr 1
            omega

lemma repeatedMul_eq_pow {M : Type} [Monoid M] (x : M) (n : Nat) :
    repeatedMul x n = x ^ n := by
  induction n with
  | zero => simp [repeatedMul]
  | succ n ih => rw [repeatedMul, ih, pow_succ]

/-- **C5.** For every monoid (in particular, every ring) element `x` and every
natural `n`, the square-and-multiply loop of `power` equals the `n`-fold
repeated product of `x`; in particular `power(x, 0) = 1`; and the integer
instantiation `power` agrees with the repeated product for every exponent
`k ≥ 0`. -/
theorem power_eq_repeatedMul {M : Type} [Monoid M] (x : M) (n : Nat) :
    powerLoop x n = repeatedMul x n ∧ powerLoop x 0 = 1 ∧
    ∀ (z k : ℤ), 0 ≤ k → power z k = repeatedMul z k.toNat := by
  refine ⟨?_, ?_, fun z k hk => ?_⟩
  · rw [powerLoop, foldBits_buildBits, repeatedMul_eq_pow]
  · rw [powerLoop, foldBits_buildBits, pow_zero]
  · rw [power, if_neg (not_lt.mpr hk), powerLoop, foldBits_buildBits,
      repeatedMul_eq_pow]

/-- Witness for C5 at `x = 3 : ℤ`, `n = 4`, `k = 4`. -/
theorem power_eq_repeatedMul_witness :
    powerLoop (3 : ℤ) 4 = repeatedMul 3 4 ∧ power 3 4 = repeatedMul (3 : ℤ) (4 : ℤ).toNat :=
  ⟨(power_eq_repeatedMul (3 : ℤ) 4).1,
   (power_eq_repeatedMul (3 : ℤ) 4).2.2 3 4 (by decide)⟩

/-- **C10.** For every integer `x ≥ 2` and every negative integer `n`,
`power(x, n)` returns `0`: the negative-exponent branch computes
`1 / power(x, -n)` with Python 2 integer division, and the reciprocal of an
integer `≥ 2` is `0` under integer division (floor and truncating division
agree here, both operands being positive). -/
theorem power_neg_exponent_zero (x n : ℤ) (hx : 2 ≤ x) (hn : n < 0) :
    power x n = 0 := by
  rw [power, if_pos hn, powerLoop, foldBits_buildBits]
  have hm : (-n).toNat ≠ 0 := by omega
  have hxp : (2 : ℤ) ≤ x ^ (-n).toNat :=
    le_trans hx (le_self_pow₀ (by omega) hm)
  rw [Int.fdiv_eq_ediv 1 (by omega)]
  exact Int.ediv_eq_zero_of_lt (by omega) (by omega)

/-- Witness for C10 at `x = 2`, `n = -3`. -/
theorem power_neg_exponent_zero_witness : power 2 (-3) = 0 :=
  power_neg_exponent_zero 2 (-3) (by decide) (by decide)

/-! ## Float decomposition (`intrepr`)

`math.frexp` is a host primitive: for a finite nonzero double `x` it returns
the unique pair `(m, e)` with `x = m * 2^e`, `1/2 ≤ |m| < 1`, and — because a
double's significand has 53 bits — `m * 2^53` integral.  The embedding of
`intrepr` takes that frexp output as its input. -/

/-- numpy `finfo(float).nmant`: the 52 fraction bits of a binary64 double. -/
def nmant : Nat := 52

/-- Python's `int()` on a real value: truncation toward zero. -/
def pyInt (q : ℚ) : ℤ :=
  if 0 ≤ q then ⌊q⌋ else ⌈q⌉

/-- `intrepr(x)` on the frexp decomposition `(m, e)` of `x`:
`(int(m * 2 ** (finfo.nmant + 1)), e - (finfo.nmant + 1))`. -/
def intrepr (m : ℚ) (e : ℤ) : ℤ × ℤ :=
  (pyInt (m * 2 ^ (nmant + 1)), e - ((nmant : ℤ) + 1))

/-- **C6.** For every finite nonzero double `x` — given through its frexp
decomposition `x = m * 2^e` with `1/2 ≤ |m| < 1` and `m * 2^53` integral —
if `intrepr` returns `(mantissaInt, exponent)` then
`mantissaInt * 2^exponent = x` exactly. -/
theorem intrepr_roundtrip (m : ℚ) (e : ℤ)
    (h1 : 1 / 2 ≤ |m|) (h2 : |m| < 1) (h3 : (m * 2 ^ (nmant + 1)).den = 1) :
    ((intrepr m e).1 : ℚ) * (2 : ℚ) ^ (intrepr m e).2 = m * 2 ^ e := by
  have hq : ((m * 2 ^ (nmant + 1)).num : ℚ) = m * 2 ^ (nmant + 1) :=
    Rat.coe_int_num_of_den_eq_one h3
  have hpy : ((pyInt (m * 2 ^ (nmant + 1)) : ℤ) : ℚ) = m * 2 ^ (nmant + 1) := by
    unfold pyInt
    split
    · rw [← hq, Int.floor_intCast]
    · rw [← hq, Int.ceil_intCast]
  simp only [intrepr]
  rw [hpy, mul_assoc]
  congr 1
  rw [← zpow_natCast (2 : ℚ) (nmant + 1), ← zpow_add₀ (two_ne_zero)]
  congr 1
  push_cast
  ring

lemma abs_three_quarters : |(3 / 4 : ℚ)| = 3 / 4 :=
  abs_of_pos (by norm_num)

lemma mantissa_scaled :
    (3 / 4 * 2 ^ (nmant + 1) : ℚ) = ((6755399441055744 : ℤ) : ℚ) := by
  norm_num [nmant]

/-- The concrete value of `intrepr` on the frexp decomposition of `1.5`. -/
lemma intrepr_three_quarters : intrepr (3 / 4) 1 = (6755399441055744, -52) := by
  simp only [intrepr, pyInt, mantissa_scaled]
  rw [if_pos (by positivity), Int.floor_intCast]
  norm_num [nmant]

/-- Witness for C6 at `x = 1.5`, whose frexp decomposition is `(3/4, 1)`. -/
theorem intrepr_roundtrip_witness :
    ((intrepr (3 / 4) 1).1 : ℚ) * (2 : ℚ) ^ (intrepr (3 / 4) 1).2 = 3 / 4 * 2 ^ (1 : ℤ) :=
  intrepr_roundtrip (3 / 4) 1 (by rw [abs_three_quarters]; norm_num)
    (by rw [abs_three_quarters]; norm_num)
    (by rw [mantissa_scaled, Rat.den_intCast])

/-- **C8, counterexample.** `intrepr(1.5)` — frexp gives `(0.75, 1)` — returns
`(6755399441055744, -52)`, and `6755399441055744 = 3 * 2^51` is *not* odd: the
significand is scaled to full 53-bit width, not fully reduced. -/
theorem intrepr_one_point_five_not_odd :
    intrepr (3 / 4) 1 = (6755399441055744, -52) ∧
    ¬Odd (intrepr (3 / 4) 1).1 := by
  refine ⟨intrepr_three_quarters, ?_⟩
  rw [Int.odd_iff, intrepr_three_quarters]
  decide

/-- **C8, amended.** `intrepr(1.5)` returns `(mantissaInt, exponent) =
(6755399441055744, -52)` satisfying `mantissaInt * 2^exponent = 1.5`, with
`mantissaInt` even (the full-width significand `3 * 2^51`), not odd. -/
theorem intrepr_one_point_five :
    intrepr (3 / 4) 1 = (6755399441055744, -52) ∧
    ((intrepr (3 / 4) 1).1 : ℚ) * (2 : ℚ) ^ (intrepr (3 / 4) 1).2 = 3 / 2 ∧
    Even (intrepr (3 / 4) 1).1 := by
  refine ⟨intrepr_three_quarters, ?_, ?_⟩
  · rw [intrepr_three_quarters]
    norm_num [zpow_neg]
  · rw [Int.even_iff, intrepr_three_quarters]
    decide

/-! ## Nudge and the double-precision arithmetic it runs on

`nudge` adds scaled epsilons to `x` in host double arithmetic, so settling a
claim about it requires a model of IEEE-754 binary64 rounding.  Modelled from
the spec (§6: the host float type is IEEE-754 double precision — 52 fraction
bits, subnormal spacing `2^-1074` — under the default round-to-nearest-even
mode); overflow to infinity is not modelled, which is faithful for every value
arising below. -/

/-- numpy `finfo(float).eps`: `2^-52`, the gap above `1.0`. -/
def eps : ℚ := 1 / 2 ^ 52

/-- numpy `finfo(float).epsneg`: `2^-53`, the gap below `1.0`. -/
def epsneg : ℚ := 1 / 2 ^ 53

/-- The binade exponent of a nonzero rational: the unique `e` with
`2^e ≤ |q| < 2^(e+1)`. -/
def binexp (q : ℚ) : ℤ :=
  Int.log 2 |q|

/-- The exponent component returned by `math.frexp`: `x = m * 2^e` with
`1/2 ≤ |m| < 1`, so `e = binexp x + 1`; `frexp(0)` returns exponent `0`. -/
def frexpExp (q : ℚ) : ℤ :=
  if q = 0 then 0 else binexp q + 1

/-- Round a rational to the nearest integer, ties to even. -/
def roundHalfEven (q : ℚ) : ℤ :=
  if q - ⌊q⌋ < 1 / 2 then ⌊q⌋
  else if 1 / 2 < q - ⌊q⌋ then ⌊q⌋ + 1
  else if Even ⌊q⌋ then ⌊q⌋ else ⌊q⌋ + 1

/-- The exponent of the unit in the last place of the double nearest `q`:
`binexp q - 52` in the normal range, floored at the subnormal spacing
`2^-1074`. -/
def dblUlpExp (q : ℚ) : ℤ :=
  Max.max (binexp q - 52) (-1074)

/-- IEEE-754 binary64 round-to-nearest-even of an exact rational value: round
to the nearest multiple of the ulp. -/
def roundDouble (q : ℚ) : ℚ :=
  (roundHalfEven (q * 2 ^ (-dblUlpExp q)) : ℚ) * 2 ^ dblUlpExp q

/-- Double addition: the exact sum, rounded. -/
def addDouble (a b : ℚ) : ℚ :=
  roundDouble (a + b)

/-- Double multiplication: the exact product, rounded. -/
def mulDouble (a b : ℚ) : ℚ :=
  roundDouble (a * b)

/-- `nudge(x, dir)`: `assert dir in (-1, +1)` (assertion failure modelled as
`none`); then `f = dir * 2 ** (math.frexp(x)[1] - 1)` — a power of two, hence
exactly representable — and `y = x + f * finfo.epsneg` in double arithmetic;
if `y != x` return `y`, else return `x + f * finfo.eps`. -/
def nudge (x : ℚ) (dir : ℤ) : Option ℚ :=
  if dir = -1 ∨ dir = 1 then
    let f : ℚ := (dir : ℚ) * 2 ^ (frexpExp x - 1)
    let y := addDouble x (mulDouble f epsneg)
    some (if y ≠ x then y else addDouble x (mulDouble f eps))
  else none

lemma binexp_zpow (k : ℤ) : binexp ((2 : ℚ) ^ k) = k := by
  unfold binexp
  rw [abs_of_pos (zpow_pos (by norm_num) k),
    show (2 : ℚ) = ((2 : ℕ) : ℚ) by norm_num]
  exact Int.log_zpow (by norm_num) k

lemma roundHalfEven_intCast (n : ℤ) : roundHalfEven ((n : ℤ) : ℚ) = n := by
  unfold roundHalfEven
  rw [Int.floor_intCast]
  rw [if_pos (by norm_num)]

lemma roundHalfEven_small (q : ℚ) (h0 : 0 ≤ q) (h : q < 1 / 2) :
    roundHalfEven q = 0 := by
  have hf : ⌊q⌋ = 0 := Int.floor_eq_zero_iff.2 ⟨h0, lt_trans h (by norm_num)⟩
  unfold roundHalfEven
  rw [hf]
  rw [if_pos (by push_cast; linarith)]

lemma zpow_mul_zpow (a b : ℤ) : (2 : ℚ) ^ a * 2 ^ b = 2 ^ (a + b) :=
  (zpow_add₀ two_ne_zero a b).symm

lemma roundHalfEven_two_pow (n : ℕ) : roundHalfEven ((2 : ℚ) ^ n) = 2 ^ n := by
  rw [show ((2 : ℚ) ^ n) = ((2 ^ n : ℤ) : ℚ) by push_cast; ring,
    roundHalfEven_intCast]

lemma roundDouble_zpow (k : ℤ) (hk : -1074 ≤ k) : roundDouble ((2 : ℚ) ^ k) = 2 ^ k := by
  unfold roundDouble dblUlpExp
  rw [binexp_zpow]
  have hu : Max.max (k - 52) (-1074) ≤ k := max_le (by omega) hk
  set u := Max.max (k - 52) (-1074) with hu_def
  have hkk : k + -u = (((k - u).toNat : ℕ) : ℤ) := by omega
  rw [zpow_mul_zpow, hkk, zpow_natCast, roundHalfEven_two_pow]
  push_cast
  rw [← zpow_natCast (2 : ℚ) (k - u).toNat, zpow_mul_zpow]
  congr 1
  omega

lemma roundDouble_zpow_tiny (k : ℤ) (hk : k ≤ -1076) : roundDouble ((2 : ℚ) ^ k) = 0 := by
  unfold roundDouble dblUlpExp
  rw [binexp_zpow]
  have hu : Max.max (k - 52) (-1074) = -1074 := max_eq_right (by omega)
  rw [hu]
  have harg : (2 : ℚ) ^ k * 2 ^ (-(-1074) : ℤ) = 2 ^ (k + 1074) :=
    (zpow_add₀ (two_ne_zero) k (-(-1074))).symm.trans (by norm_num)
  have hlt : (2 : ℚ) ^ (k + 1074) < 1 / 2 :=
    calc (2 : ℚ) ^ (k + 1074) ≤ 2 ^ (-2 : ℤ) := by
          apply zpow_le_zpow_right₀ (by norm_num)
          omega
      _ < 1 / 2 := by norm_num
  rw [harg, roundHalfEven_small _ (le_of_lt (zpow_pos (by norm_num) _)) hlt]
  simp

/-- **C7, evaluation at the failing input.** At `x = 2^-1074` (the smallest
positive subnormal double, `5e-324`) with direction `+1`, `nudge` returns `x`
itself: both scaled increments `f * epsneg = 2^-1127` and `f * eps = 2^-1126`
underflow to `0` in double arithmetic, so `x + 0 == x` on both paths — the
returned value neither differs from nor exceeds `x`, contradicting the
claimed `nudge(x, +1) > x`. -/
theorem nudge_min_subnormal_returns_x :
    nudge ((2 : ℚ) ^ (-1074 : ℤ)) 1 = some ((2 : ℚ) ^ (-1074 : ℤ)) := by
  have hx0 : ((2 : ℚ) ^ (-1074 : ℤ)) ≠ 0 := zpow_ne_zero _ two_ne_zero
  have hfe : frexpExp ((2 : ℚ) ^ (-1074 : ℤ)) = -1073 := by
    unfold frexpExp
    rw [if_neg hx0, binexp_zpow]
    norm_num
  have hf : (1 : ℚ) * 2 ^ (frexpExp ((2 : ℚ) ^ (-1074 : ℤ)) - 1)
      = (2 : ℚ) ^ (-1074 : ℤ) := by
    rw [hfe]
    norm_num
  have hmul1 : mulDouble ((2 : ℚ) ^ (-1074 : ℤ)) epsneg = 0 := by
    unfold mulDouble
    have : (2 : ℚ) ^ (-1074 : ℤ) * epsneg = 2 ^ (-1127 : ℤ) := by
      have he : epsneg = (2 : ℚ) ^ (-53 : ℤ) := by
        rw [epsneg, zpow_neg]
        norm_num
      rw [he, ← zpow_add₀ (two_ne_zero)]
      norm_num
    rw [this]
    exact roundDouble_zpow_tiny _ (by omega)
  have hmul2 : mulDouble ((2 : ℚ) ^ (-1074 : ℤ)) eps = 0 := by
    unfold mulDouble
    have : (2 : ℚ) ^ (-1074 : ℤ) * eps = 2 ^ (-1126 : ℤ) := by
      have he : eps = (2 : ℚ) ^ (-52 : ℤ) := by
        rw [eps, zpow_neg]
        norm_num
      rw [he, ← zpow_add₀ (two_ne_zero)]
      norm_num
    rw [this]
    exact roundDouble_zpow_tiny _ (by omega)
  have hadd : addDouble ((2 : ℚ) ^ (-1074 : ℤ)) 0 = (2 : ℚ) ^ (-1074 : ℤ) := by
    unfold addDouble
    rw [add_zero]
    exact roundDouble_zpow _ (by omega)
  unfold nudge
  rw [if_pos (Or.inr rfl)]
  simp only [Int.cast_one]
  rw [hf, hmul1, hmul2, hadd]
  simp

end Fpu
